import Mathlib

/-!
Shallow embedding of the string library in `src/src/libcore/str.rs` (an early
Rust `libcore`), together with proofs about the claims of its specification.

Representation conventions:
* A borrowed string slice (`&str`) is modelled by the list of its content
  bytes (`List Nat`, each entry a `u8` value); the null sentinel that the
  underlying buffer carries after the content is *not* part of this list.
  `as_buf` exposes the buffer together with that sentinel, so a read of byte
  `i` of a slice `s` is a read of `(s ++ [0])[i]?` (offset `len s`, the
  sentinel, is readable; anything beyond is out of bounds).
* An owned string (`~str`) is modelled, where its buffer layout matters
  (namespaces `raw` and `owned`), by the list of the bytes of its buffer up
  to the fill pointer: the content bytes followed by the sentinel byte.
  Bytes in the reserved-but-unfilled region of the allocation are not
  observable and are dropped from the model.
* Machine integers become `Nat` with explicit `% 2 ^ w` where the source
  relies on wrap-around (the `u8` left shift in `char_range_at`); bit
  operations on bytes (`x & 63`, `x >> 6`, `x & 192 == 128`) are written in
  the equivalent arithmetic form (`x % 64`, `x / 64`, `128 ≤ x ∧ x < 192`,
  valid because the source operands are `u8` values below 256).
* `fail_unless!` (a fatal contract violation / task failure) and
  out-of-bounds reads are modelled by `Option`: `none` is the aborted
  computation.  `while` loops become recursion; loops whose index strictly
  increases by at least one byte per iteration take a fuel argument and are
  always called with fuel exceeding the number of remaining bytes, so the
  fuel-exhaustion branch (also `none`) is never reached at the modelled
  call sites.
-/

namespace Str

/-- Width table of `utf8_char_width` (str.rs:1721): the classic tag-bit
ranges, 0 meaning "not a lead byte", with the historical 5- and 6-byte
forms. -/
def utf8_char_width (b : Nat) : Nat :=
  if b < 128 then 1
  else if b < 192 then 0
  else if b < 224 then 2
  else if b < 240 then 3
  else if b < 248 then 4
  else if b < 252 then 5
  else 6

/-- Read byte `i` of the buffer behind slice `s`: the content bytes followed
by the null sentinel (`as_buf` exposes length `len s + 1`).  `none` is an
out-of-bounds read. -/
def getByte (s : List Nat) (i : Nat) : Option Nat :=
  (s ++ [0])[i]?

/-- Result record of `char_range_at` (str.rs:1819): decoded code point and
byte offset of the next character. -/
structure CharRange where
  ch : Nat
  next : Nat
deriving DecidableEq

/-- Continuation-byte loop of `char_range_at` (str.rs:1800-1806): reads
`cnt` bytes starting at `i`, each required to match `10xxxxxx`
(`byte & 192 == tag_cont_u8`, i.e. `128 ≤ byte < 192`), accumulating
`val <<= 6; val += byte & 63`.  `cnt` is the number of loop iterations,
`end - i` in the source. -/
def crLoop (s : List Nat) (i cnt val : Nat) : Option Nat :=
  match cnt with
  | 0 => some val
  | cnt' + 1 =>
    match getByte s i with
    | none => none
    | some b =>
      if 128 ≤ b ∧ b < 192 then crLoop s (i + 1) cnt' (val * 64 + b % 64)
      else none

/-- `char_range_at` (str.rs:1792): decode the character whose encoding
starts at byte `i`.  The lead-byte contribution mirrors
`((b0 << (w+1)) as u8 as uint) << ((w-1)*6 - w - 1)`; the `u8` shift wraps,
hence the `% 256`. -/
def char_range_at (s : List Nat) (i : Nat) : Option CharRange :=
  match getByte s i with
  | none => none
  | some b0 =>
    if utf8_char_width b0 = 0 then none
    else if utf8_char_width b0 = 1 then some ⟨b0, i + 1⟩
    else
      (crLoop s (i + 1) (utf8_char_width b0 - 1) 0).map (fun val =>
        ⟨val + b0 * 2 ^ (utf8_char_width b0 + 1) % 256 *
            2 ^ ((utf8_char_width b0 - 1) * 6 - utf8_char_width b0 - 1),
         i + utf8_char_width b0⟩)

/-- Encoded width chosen by `push_char` (str.rs:86-91): the
`max_one_b .. max_five_b` threshold chain. -/
def nbChar (code : Nat) : Nat :=
  if code < 128 then 1
  else if code < 2048 then 2
  else if code < 65536 then 3
  else if code < 2097152 then 4
  else if code < 67108864 then 5
  else 6

/-- Byte sequence written by `push_char` (str.rs:98-146) for a code point:
tag byte plus continuation bytes, masked shifts written arithmetically
(`code >> k & m | tag` becomes `code / 2^k % (m+1) + tag`). -/
def encodeChar (code : Nat) : List Nat :=
  if code < 128 then [code]
  else if code < 2048 then
    [code / 64 % 32 + 192, code % 64 + 128]
  else if code < 65536 then
    [code / 4096 % 16 + 224, code / 64 % 64 + 128, code % 64 + 128]
  else if code < 2097152 then
    [code / 262144 % 8 + 240, code / 4096 % 64 + 128,
     code / 64 % 64 + 128, code % 64 + 128]
  else if code < 67108864 then
    [code / 16777216 % 4 + 248, code / 262144 % 64 + 128,
     code / 4096 % 64 + 128, code / 64 % 64 + 128, code % 64 + 128]
  else
    [code / 1073741824 % 2 + 252, code / 16777216 % 64 + 128,
     code / 262144 % 64 + 128, code / 4096 % 64 + 128,
     code / 64 % 64 + 128, code % 64 + 128]

/-- `len` of an owned string's buffer (str.rs:1565): buffer length minus the
sentinel. -/
def strLen (v : List Nat) : Nat := v.length - 1

namespace raw

/-- `raw::set_len` (str.rs:2238): set the fill pointer to `new_len + 1` and
write the null sentinel at offset `new_len`.  The model keeps exactly the
bytes up to the new fill pointer. -/
def set_len (v : List Nat) (new_len : Nat) : List Nat :=
  v.take new_len ++ [0]

/-- `raw::slice_bytes_unique` (str.rs:2161), buffer view: copy bytes
`[begin, end)` of the buffer behind `s` (content plus sentinel, length
`n = len s + 1`) into a fresh buffer and push a null.  The two
`fail_unless!` bounds checks are the `none` branch.  Here `v` is the source
buffer itself (so `n = v.length`). -/
def slice_bytes_unique (v : List Nat) (b e : Nat) : Option (List Nat) :=
  if b ≤ e ∧ e ≤ v.length then some ((v.drop b).take (e - b) ++ [0])
  else none

end raw

namespace owned

/-- `push_char` (str.rs:83): write the encoded bytes at offset `len` of the
buffer, then `raw::set_len (len + nb)`. -/
def push_char (v : List Nat) (ch : Nat) : List Nat :=
  raw.set_len (v.take (strLen v) ++ encodeChar ch) (strLen v + nbChar ch)

/-- `push_str` (str.rs:191): copy `rhs` to offset `len`, then
`raw::set_len (llen + rlen)`. -/
def push_str (v : List Nat) (rhs : List Nat) : List Nat :=
  raw.set_len (v.take (strLen v) ++ rhs) (strLen v + rhs.length)

end owned

/-- `from_char` (str.rs:154): `push_char` onto the empty owned string
(whose buffer is the single sentinel byte). -/
def from_char (ch : Nat) : List Nat :=
  owned.push_char [0] ch

/-- Content view of `raw::slice_bytes_unique` (str.rs:2161) as used on a
slice `s`: the returned owned string minus its sentinel.  The buffer behind
`s` has length `len s + 1`, hence the bound `e ≤ len s + 1`. -/
def slice_content (s : List Nat) (b e : Nat) : Option (List Nat) :=
  if b ≤ e ∧ e ≤ s.length + 1 then some (((s ++ [0]).drop b).take (e - b))
  else none

/-- Backward scan of `char_range_at_reverse` (str.rs:1833):
`while prev > 0 && s[prev - 1] & 192 == tag_cont_u8 { prev -= 1 }`. -/
def findLead (s : List Nat) (prev : Nat) : Nat :=
  match prev with
  | 0 => 0
  | p + 1 =>
    match getByte s p with
    | none => p + 1
    | some b => if 128 ≤ b ∧ b < 192 then findLead s p else p + 1

/-- `char_range_at_reverse` (str.rs:1829): scan back over continuation
bytes, step one byte further back to the lead byte (`prev -= 1`, which on
`prev = 0` underflows the `uint` — modelled as the aborting `none`), decode
there, and return the lead byte's offset as `next`. -/
def char_range_at_reverse (s : List Nat) (start : Nat) : Option CharRange :=
  match findLead s start with
  | 0 => none
  | p + 1 => (char_range_at s p).map (fun cr => ⟨cr.ch, p⟩)

namespace owned

/-- `pop_char` (str.rs:265): `fail_unless!(end > 0)`, decode the last
character of the content, `raw::set_len` to its lead offset; returns the
character and the new buffer. -/
def pop_char (v : List Nat) : Option (Nat × List Nat) :=
  if strLen v = 0 then none
  else (char_range_at_reverse v.dropLast (strLen v)).map
    (fun cr => (cr.ch, raw.set_len v cr.next))

end owned

/-- `is_utf8` (str.rs:1577) inner continuation-byte loop
(`while chsize > 1u`): checks `v[i] & 192 == tag_cont_u8` for `cnt`
bytes from `i`. -/
def contRun (v : List Nat) (i cnt : Nat) : Bool :=
  match cnt with
  | 0 => true
  | c + 1 =>
    (decide (128 ≤ v.getD i 0) && decide (v.getD i 0 < 192)) && contRun v (i + 1) c

/-- Outer loop of `is_utf8` (str.rs:1577).  `i` grows by
`utf8_char_width ≥ 1` per iteration, so fuel `v.length + 1` suffices. -/
def is_utf8_loop (v : List Nat) (fuel i : Nat) : Bool :=
  match fuel with
  | 0 => false
  | fuel + 1 =>
    if i < v.length then
      if utf8_char_width (v.getD i 0) = 0 then false
      else if v.length < i + utf8_char_width (v.getD i 0) then false
      else if contRun v (i + 1) (utf8_char_width (v.getD i 0) - 1) then
        is_utf8_loop v fuel (i + utf8_char_width (v.getD i 0))
      else false
    else true

/-- `is_utf8` (str.rs:1577): single scan validating widths and continuation
tags. -/
def is_utf8 (v : List Nat) : Bool :=
  is_utf8_loop v (v.length + 1) 0

/-- Loop of `is_utf16` (str.rs:1595), translated literally, including the
bounds test `if i+1u < len { return false; }` exactly as written and the
unguarded read `v[i+1]` (out of bounds = `none`). -/
def is_utf16_loop (v : List Nat) (fuel i : Nat) : Option Bool :=
  match fuel with
  | 0 => none
  | fuel + 1 =>
    if i < v.length then
      match v[i]? with
      | none => none
      | some u =>
        if u ≤ 0xD7FF ∨ 0xE000 ≤ u then is_utf16_loop v fuel (i + 1)
        else if i + 1 < v.length then some false
        else
          match v[i + 1]? with
          | none => none
          | some u2 =>
            if u < 0xD7FF ∨ 0xDBFF < u then some false
            else if u2 < 0xDC00 ∨ 0xDFFF < u2 then some false
            else is_utf16_loop v fuel (i + 2)
    else some true

/-- `is_utf16` (str.rs:1595): "Determines if a vector of `u16` contains
valid UTF-16." -/
def is_utf16 (v : List Nat) : Option Bool :=
  is_utf16_loop v (v.length + 1) 0

/-- Inner loop of `match_at` (str.rs:1393): compare the needle bytes with
the haystack bytes starting at `i`.  Call sites keep every read within the
haystack buffer. -/
def maLoop (h : List Nat) (n : List Nat) (i : Nat) : Bool :=
  match n with
  | [] => true
  | c :: cs => if h.getD i 0 = c then maLoop h cs (i + 1) else false

/-- `match_at` (str.rs:1393). -/
def match_at (h n : List Nat) (pos : Nat) : Bool :=
  maLoop h n pos

/-- Candidate loop of `find_str_between` (str.rs:1469-1474): `i` from
`start` while `i ≤ e`, returning the first `match_at` hit.  Inner `none` is
fuel exhaustion (never reached: at most `e + 1` iterations); `some none` is
"no match". -/
def fsbLoop (h n : List Nat) (fuel i e : Nat) : Option (Option Nat) :=
  match fuel with
  | 0 => none
  | fuel + 1 =>
    if i ≤ e then
      if match_at h n i then some (some i)
      else fsbLoop h n fuel (i + 1) e
    else some none

/-- `find_str_between` (str.rs:1460): `fail_unless!(end <= len haystack)`
(the outer `none`), empty needle returns `Some start`, a needle longer than
`end` returns `None`, otherwise the naive scan. -/
def find_str_between (h n : List Nat) (start end_ : Nat) : Option (Option Nat) :=
  if end_ ≤ h.length then
    if n.length = 0 then some (some start)
    else if end_ < n.length then some none
    else fsbLoop h n (end_ + 1) start (end_ - n.length)
  else none

/-- `find_str` (str.rs:1412). -/
def find_str (h n : List Nat) : Option (Option Nat) :=
  find_str_between h n 0 h.length

/-- Loop of `split_inner` (str.rs:528): decode the character at `i`; on a
separator, push the slice `[start, i)` (if allowed) and restart the field
at `next`.  After the loop, push the trailing slice `[start, len)` (if
allowed).  Fuel: `next > i` at every step, so `s.length + 1` suffices. -/
def split_inner_loop (s : List Nat) (sepfn : Nat → Bool) (count : Nat)
    (allow_empty allow_trailing_empty : Bool) (fuel i start done : Nat)
    (acc : List (List Nat)) : Option (List (List Nat)) :=
  match fuel with
  | 0 => none
  | fuel + 1 =>
    if i < s.length ∧ done < count then
      match char_range_at s i with
      | none => none
      | some cr =>
        if sepfn cr.ch then
          if allow_empty = true ∨ start < i then
            match slice_content s start i with
            | none => none
            | some piece =>
              split_inner_loop s sepfn count allow_empty allow_trailing_empty
                fuel cr.next cr.next (done + 1) (acc ++ [piece])
          else
            split_inner_loop s sepfn count allow_empty allow_trailing_empty
              fuel cr.next cr.next (done + 1) acc
        else
          split_inner_loop s sepfn count allow_empty allow_trailing_empty
            fuel cr.next start done acc
    else
      if allow_trailing_empty = true ∨ start < s.length then
        (slice_content s start s.length).map (fun piece => acc ++ [piece])
      else some acc

/-- `split_inner` (str.rs:528). -/
def split_inner (s : List Nat) (sepfn : Nat → Bool) (count : Nat)
    (allow_empty allow_trailing_empty : Bool) : Option (List (List Nat)) :=
  split_inner_loop s sepfn count allow_empty allow_trailing_empty
    (s.length + 1) 0 0 0 []

/-- ASCII fast-path loop of `split_char_inner` (str.rs:471-490): scan byte
by byte for the separator byte `b`. -/
def split_char_loop (s : List Nat) (b : Nat) (count : Nat)
    (allow_empty allow_trailing_empty : Bool) (fuel i start done : Nat)
    (acc : List (List Nat)) : Option (List (List Nat)) :=
  match fuel with
  | 0 => none
  | fuel + 1 =>
    if i < s.length ∧ done < count then
      if s.getD i 0 = b then
        if allow_empty = true ∨ start < i then
          match slice_content s start i with
          | none => none
          | some piece =>
            split_char_loop s b count allow_empty allow_trailing_empty
              fuel (i + 1) (i + 1) (done + 1) (acc ++ [piece])
        else
          split_char_loop s b count allow_empty allow_trailing_empty
            fuel (i + 1) (i + 1) (done + 1) acc
      else
        split_char_loop s b count allow_empty allow_trailing_empty
          fuel (i + 1) start done acc
    else
      if allow_trailing_empty = true ∨ start < s.length then
        (slice_content s start s.length).map (fun piece => acc ++ [piece])
      else some acc

/-- `split_char_inner` (str.rs:469): byte scan for ASCII separators,
otherwise `split_inner` with the predicate `cur == sep`. -/
def split_char_inner (s : List Nat) (sep : Nat) (count : Nat)
    (allow_empty allow_trailing_empty : Bool) : Option (List (List Nat)) :=
  if sep < 128 then
    split_char_loop s sep count allow_empty allow_trailing_empty
      (s.length + 1) 0 0 0 []
  else split_inner s (fun cur => cur == sep) count allow_empty allow_trailing_empty

/-- `split_char` (str.rs:442). -/
def split_char (s : List Nat) (sep : Nat) : Option (List (List Nat)) :=
  split_char_inner s sep s.length true true

/-- `split` (str.rs:499). -/
def split (s : List Nat) (sepfn : Nat → Bool) : Option (List (List Nat)) :=
  split_inner s sepfn s.length true true

/-- `split_nonempty` (str.rs:515). -/
def split_nonempty (s : List Nat) (sepfn : Nat → Bool) : Option (List (List Nat)) :=
  split_inner s sepfn s.length false false

/-- Modelled from the spec: `char::is_whitespace`, the Unicode whitespace
classification oracle (`char.rs` is not part of `src/`; §1 of the spec lists
it as an external collaborator).  Modelled on the ASCII range: space, tab,
LF, VT, FF, CR. -/
def is_whitespace (c : Nat) : Bool :=
  c = 32 ∨ c = 9 ∨ c = 10 ∨ c = 11 ∨ c = 12 ∨ c = 13

/-- `words` (str.rs:674): `split_nonempty(s, char::is_whitespace)`. -/
def words (s : List Nat) : Option (List (List Nat)) :=
  split_nonempty s (fun c => is_whitespace c)

/-- Loop of `connect` (str.rs:228): fold the strings into one buffer,
pushing the separator before every element except the first. -/
def connectLoop (v : List (List Nat)) (sep : List Nat) (first : Bool)
    (s : List Nat) : List Nat :=
  match v with
  | [] => s
  | ss :: rest => connectLoop rest sep false ((if first then s else s ++ sep) ++ ss)

/-- `connect` (str.rs:228), content view. -/
def connect (v : List (List Nat)) (sep : List Nat) : List Nat :=
  connectLoop v sep true []

/-- Word-packing loop of `split_within` (str.rs:690-705): the running `row`
is saved and restarted at `word` whenever `row.len() + word.len() + 1 > lim`;
otherwise the word is appended, preceded by one space if the row is
non-empty.  After the loop the final row is pushed if non-empty. -/
def swLoop (ws : List (List Nat)) (rows : List (List Nat)) (row : List Nat)
    (lim : Nat) : List (List Nat) :=
  match ws with
  | [] => if row = [] then rows else rows ++ [row]
  | word :: rest =>
    if lim < row.length + word.length + 1 then
      swLoop rest (rows ++ [row]) word lim
    else
      swLoop rest rows ((if 0 < row.length then row ++ [32] else row) ++ word) lim

/-- `split_within` (str.rs:681): split into words, return `[]` when there
are none, else run the greedy packing loop. -/
def split_within (ss : List Nat) (lim : Nat) : Option (List (List Nat)) :=
  (words ss).map (fun ws => if ws = [] then [] else swLoop ws [] [] lim)

/-- Backtracking loop of `iter_matches` (str.rs:557-578), accumulating the
`(match_start, match_end)` pairs passed to the callback.  The naive
backtracking scan performs at most `(len + 1) * (sep_len + 1)` steps, which
the fuel at the call site covers. -/
def imLoop (s sep : List Nat) (fuel i match_start match_i : Nat) :
    Option (List (Nat × Nat)) :=
  match fuel with
  | 0 => none
  | fuel + 1 =>
    if i < s.length then
      if s.getD i 0 = sep.getD match_i 0 then
        if match_i + 1 = sep.length then
          (imLoop s sep fuel (i + 1)
              (if match_i = 0 then i else match_start) 0).map
            (fun rest => ((if match_i = 0 then i else match_start), i + 1) :: rest)
        else
          imLoop s sep fuel (i + 1) (if match_i = 0 then i else match_start)
            (match_i + 1)
      else
        if 0 < match_i then imLoop s sep fuel (match_start + 1) match_start 0
        else imLoop s sep fuel (i + 1) match_start match_i
    else some []

/-- `iter_matches` (str.rs:554): `fail_unless!(sep_len > 0)` is the `none`
branch; otherwise the list of non-overlapping match ranges. -/
def iter_matches (s sep : List Nat) : Option (List (Nat × Nat)) :=
  if sep.length = 0 then none
  else imLoop s sep ((s.length + 1) * (sep.length + 1) + 1) 0 0 0

/-- Gap list of `iter_between_matches` (str.rs:581): the callback receives
`(last_end, from)` for every match `(from, to)` and finally
`(last_end, len s)`. -/
def ibmPairs (ms : List (Nat × Nat)) (last_end l : Nat) : List (Nat × Nat) :=
  match ms with
  | [] => [(last_end, l)]
  | (f, t) :: rest => (last_end, f) :: ibmPairs rest t l

/-- `iter_between_matches` (str.rs:581). -/
def iter_between_matches (s sep : List Nat) : Option (List (Nat × Nat)) :=
  (iter_matches s sep).map (fun ms => ibmPairs ms 0 s.length)

/-- Rebuild loop of `replace` (str.rs:740-748): concatenate the unmatched
gaps, preceding every gap but the first with the replacement text. -/
def replaceLoop (s tos : List Nat) (pairs : List (Nat × Nat)) (first : Bool)
    (result : List Nat) : Option (List Nat) :=
  match pairs with
  | [] => some result
  | (st, en) :: ps =>
    match slice_content s st en with
    | none => none
    | some piece => replaceLoop s tos ps false ((if first then result else result ++ tos) ++ piece)

/-- `replace` (str.rs:739). -/
def replace (s frm tos : List Nat) : Option (List Nat) :=
  (iter_between_matches s frm).bind (fun pairs => replaceLoop s tos pairs true [])

/-- Loop of `decode_chars`, the `each_char` traversal (str.rs:1008):
successive `char_range_at` steps collecting the code points.  `next > i`
at every step, so fuel `s.length + 1` suffices. -/
def decodeCharsLoop (s : List Nat) (fuel i : Nat) : Option (List Nat) :=
  match fuel with
  | 0 => none
  | fuel + 1 =>
    if i < s.length then
      match char_range_at s i with
      | none => none
      | some cr => (decodeCharsLoop s fuel cr.next).map (fun cs => cr.ch :: cs)
    else some []

/-- The sequence of code points visited by `each_char` (str.rs:1002). -/
def decode_chars (s : List Nat) : Option (List Nat) :=
  decodeCharsLoop s (s.length + 1) 0

/-- `map` (str.rs:955): `push_char (ff cc)` for every char of `ss`; the
resulting content is the concatenation of the encodings. -/
def map (s : List Nat) (ff : Nat → Nat) : Option (List Nat) :=
  (decode_chars s).map (fun cs => ((cs.map ff).map encodeChar).flatten)

/-- The cast `c as libc::c_char` (str.rs:722): `char` (a `u32` value)
truncated to 8 bits and reinterpreted as a signed `i8`. -/
def c_char_of_char (c : Nat) : Int :=
  if c % 256 < 128 then (c % 256 : Int) else (c % 256 : Int) - 256

/-- Modelled from the spec: `libc::toupper` (the C library is outside
`src/`; case mapping is specified as ASCII-only), in the C locale: maps the
codes of `a`–`z` to `A`–`Z` and leaves every other argument unchanged. -/
def toupper (x : Int) : Int :=
  if 97 ≤ x ∧ x ≤ 122 then x - 32 else x

/-- The cast of the `c_char` result back to `char` (str.rs:722): the `i8`
value sign-extended into the 32-bit `char` representation. -/
def char_of_c_char (x : Int) : Nat :=
  (x % 4294967296).toNat

/-- `to_upper` (str.rs:720): `map` with
`|c| (libc::toupper(c as libc::c_char)) as char`. -/
def to_upper (s : List Nat) : Option (List Nat) :=
  map s (fun c => char_of_c_char (toupper (c_char_of_char c)))

/-- Byte comparison `a[idx].cmp(&b[idx])` (the `Ord` instance of `u8`). -/
def byteCmp (x y : Nat) : Ordering :=
  if x < y then Ordering.lt else if y < x then Ordering.gt else Ordering.eq

/-- `cmp` (str.rs:802): compare byte by byte over the common length, then
compare the lengths.  The index loop over `[0, min(len a, len b))` followed
by `a.len().cmp(&b.len())` is written as the equivalent structural
recursion: when one list runs out first, only the length comparison is
left. -/
def cmp (a b : List Nat) : Ordering :=
  match a, b with
  | [], [] => Ordering.eq
  | [], _ :: _ => Ordering.lt
  | _ :: _, [] => Ordering.gt
  | x :: xs, y :: ys =>
    match byteCmp x y with
    | Ordering.lt => Ordering.lt
    | Ordering.gt => Ordering.gt
    | Ordering.eq => cmp xs ys

/-- `libc::memcmp` over `min` shared bytes as `eq_slice` uses it: sign of
the first byte difference, 0 when the compared prefixes agree.  `eq_slice`
calls it with count `alen - 1 = len a` on equal-length buffers, which the
structural recursion realises. -/
def memcmpBytes : List Nat → List Nat → Int
  | x :: xs, y :: ys =>
    if x < y then -1 else if y < x then 1 else memcmpBytes xs ys
  | _, _ => 0

/-- `eq_slice` (str.rs:759): buffer lengths equal (`alen == blen`, i.e.
equal content lengths) and `memcmp` of the `alen - 1` content bytes
returns 0. -/
def eq_slice (a b : List Nat) : Bool :=
  if a.length = b.length then memcmpBytes a b == 0 else false

/-! Specification-side definitions used to state the theorems (these are
not translations of source functions; each is compared against the
corresponding source translation by the theorems below). -/

/-- Concatenated canonical encoding of a list of code points.  A slice is
canonically encoded UTF-8 when it is `flatE cs` for code points below
`2 ^ 31`; `encodeChar` always picks the shortest form, so this excludes the
overlong encodings that `is_utf8` also accepts. -/
def flatE (cs : List Nat) : List Nat :=
  (cs.map encodeChar).flatten

/-- Fields of splitting a character sequence at the separator predicate,
keeping empty fields and the trailing field (the default split policy). -/
def splitSpec (sepfn : Nat → Bool) : List Nat → List (List Nat)
  | [] => [[]]
  | c :: cs =>
    match splitSpec sepfn cs with
    | [] => []
    | f :: fs => if sepfn c then [] :: f :: fs else (c :: f) :: fs

/-- Fields of splitting a byte sequence at the separator byte, keeping
empty fields and the trailing field. -/
def splitSpecB (b : Nat) : List Nat → List (List Nat)
  | [] => [[]]
  | x :: xs =>
    match splitSpecB b xs with
    | [] => []
    | f :: fs => if x = b then [] :: f :: fs else (x :: f) :: fs

/-- Prepend `x` onto the first element of a field list (the partially
scanned field joined with the first emitted field). -/
def consHead (x : List Nat) : List (List Nat) → List (List Nat)
  | [] => [x]
  | y :: ys => (x ++ y) :: ys

/-- Single-space join of a group of words: `connect g " "`. -/
def joinSp (g : List (List Nat)) : List Nat :=
  connect g [32]

/-- Greedy grouping underlying `split_within`: the grouped counterpart of
`swLoop`, collecting the words of each output row instead of the row
text. -/
def packGroups (ws : List (List Nat)) (g : List (List Nat)) (lim : Nat) :
    List (List (List Nat)) :=
  match ws with
  | [] => if g = [] then [] else [g]
  | w :: rest =>
    if lim < (joinSp g).length + w.length + 1 then
      g :: packGroups rest [w] lim
    else packGroups rest (g ++ [w]) lim

/-- Null-sentinel invariant of an owned string's buffer: the buffer is the
logical content (of `strLen` bytes, the reported `len`) followed by the
sentinel, so the byte at offset `len` is 0. -/
def sentinelOk (r : List Nat) : Prop :=
  r.length = strLen r + 1 ∧ r.getD (strLen r) 0 = 0

/-- ASCII uppercase mapping on bytes: the behaviour the specification
ascribes to `to_upper` on ASCII characters. -/
def ascii_to_upper (b : Nat) : Nat :=
  if 97 ≤ b ∧ b ≤ 122 then b - 32 else b

end Str

namespace Str

/-! ### Basic facts about the codec -/

theorem getByte_append (pre t : List Nat) (i : Nat) :
    getByte (pre ++ t) (pre.length + i) = getByte t i := by
  unfold getByte
  rw [List.append_assoc, List.getElem?_append_right (by omega)]
  congr 1
  omega

theorem getByte_cons_zero (x : Nat) (xs : List Nat) : getByte (x :: xs) 0 = some x := by
  simp [getByte]

theorem encodeChar_length (c : Nat) : (encodeChar c).length = nbChar c := by
  unfold encodeChar nbChar
  split_ifs <;> rfl

theorem nbChar_pos (c : Nat) : 1 ≤ nbChar c := by
  unfold nbChar
  split_ifs <;> omega

theorem crLoop_run (bs : List Nat) (pre suf : List Nat) (val : Nat)
    (hb : ∀ b ∈ bs, 128 ≤ b ∧ b < 192) :
    crLoop (pre ++ (bs ++ suf)) pre.length bs.length val
      = some (bs.foldl (fun v b => v * 64 + b % 64) val) := by
  induction bs generalizing pre val with
  | nil => simp [crLoop]
  | cons b bs ih =>
    have hget : getByte (pre ++ ((b :: bs) ++ suf)) (pre.length + 0) = some b := by
      rw [getByte_append]; exact getByte_cons_zero b (bs ++ suf)
    simp only [Nat.add_zero] at hget
    have hsplit : pre ++ ((b :: bs) ++ suf) = (pre ++ [b]) ++ (bs ++ suf) := by simp
    have hlen : pre.length + 1 = (pre ++ [b]).length := by simp
    simp only [List.length_cons, crLoop, hget]
    rw [if_pos (hb b (List.mem_cons_self b bs)), hsplit, hlen,
      ih (pre ++ [b]) _ (fun x hx => hb x (List.mem_cons_of_mem b hx))]
    rfl

theorem char_range_at_encode (c : Nat) (pre suf : List Nat) (hc : c < 2 ^ 31) :
    char_range_at (pre ++ (encodeChar c ++ suf)) pre.length
      = some ⟨c, pre.length + nbChar c⟩ := by
  by_cases h1 : c < 128
  · have henc : encodeChar c = [c] := by unfold encodeChar; rw [if_pos h1]
    have hnb : nbChar c = 1 := by unfold nbChar; rw [if_pos h1]
    have hget : getByte (pre ++ (encodeChar c ++ suf)) pre.length = some c := by
      have h := getByte_append pre (encodeChar c ++ suf) 0
      simp only [Nat.add_zero] at h
      rw [h, henc]; exact getByte_cons_zero _ _
    have hw : utf8_char_width c = 1 := by unfold utf8_char_width; rw [if_pos h1]
    rw [hnb]
    rw [char_range_at, hget]
    dsimp only
    rw [hw]
    norm_num
  by_cases h2 : c < 2048
  · have henc : encodeChar c = [c / 64 % 32 + 192, c % 64 + 128] := by
      unfold encodeChar; rw [if_neg h1, if_pos h2]
    have hnb : nbChar c = 2 := by unfold nbChar; rw [if_neg h1, if_pos h2]
    have hget : getByte (pre ++ (encodeChar c ++ suf)) pre.length
        = some (c / 64 % 32 + 192) := by
      have h := getByte_append pre (encodeChar c ++ suf) 0
      simp only [Nat.add_zero] at h
      rw [h, henc]; exact getByte_cons_zero _ _
    have hw : utf8_char_width (c / 64 % 32 + 192) = 2 := by
      unfold utf8_char_width
      rw [if_neg (by omega), if_neg (by omega), if_pos (by omega)]
    have hloop : crLoop (pre ++ (encodeChar c ++ suf)) (pre.length + 1) 1 0
        = some ([c % 64 + 128].foldl (fun v b => v * 64 + b % 64) 0) := by
      have hsplit : pre ++ (encodeChar c ++ suf)
          = (pre ++ [c / 64 % 32 + 192]) ++ ([c % 64 + 128] ++ suf) := by
        rw [henc]; simp
      have hlen : pre.length + 1 = (pre ++ [c / 64 % 32 + 192]).length := by simp
      rw [hsplit, hlen]
      exact crLoop_run [c % 64 + 128] (pre ++ [c / 64 % 32 + 192]) suf 0
        (by intro b hb; simp at hb; omega)
    rw [hnb]
    rw [char_range_at, hget]
    dsimp only
    rw [hw]
    norm_num [hloop, CharRange.mk.injEq]
    omega
  by_cases h3 : c < 65536
  · have henc : encodeChar c = [c / 4096 % 16 + 224, c / 64 % 64 + 128, c % 64 + 128] := by
      unfold encodeChar; rw [if_neg h1, if_neg h2, if_pos h3]
    have hnb : nbChar c = 3 := by unfold nbChar; rw [if_neg h1, if_neg h2, if_pos h3]
    have hget : getByte (pre ++ (encodeChar c ++ suf)) pre.length
        = some (c / 4096 % 16 + 224) := by
      have h := getByte_append pre (encodeChar c ++ suf) 0
      simp only [Nat.add_zero] at h
      rw [h, henc]; exact getByte_cons_zero _ _
    have hw : utf8_char_width (c / 4096 % 16 + 224) = 3 := by
      unfold utf8_char_width
      rw [if_neg (by omega), if_neg (by omega), if_neg (by omega), if_pos (by omega)]
    have hloop : crLoop (pre ++ (encodeChar c ++ suf)) (pre.length + 1) 2 0
        = some ([c / 64 % 64 + 128, c % 64 + 128].foldl (fun v b => v * 64 + b % 64) 0) := by
      have hsplit : pre ++ (encodeChar c ++ suf)
          = (pre ++ [c / 4096 % 16 + 224]) ++ ([c / 64 % 64 + 128, c % 64 + 128] ++ suf) := by
        rw [henc]; simp
      have hlen : pre.length + 1 = (pre ++ [c / 4096 % 16 + 224]).length := by simp
      rw [hsplit, hlen]
      exact crLoop_run [c / 64 % 64 + 128, c % 64 + 128] (pre ++ [c / 4096 % 16 + 224]) suf 0
        (by intro b hb; simp at hb; omega)
    rw [hnb]
    rw [char_range_at, hget]
    dsimp only
    rw [hw]
    norm_num [hloop, CharRange.mk.injEq]
    omega
  by_cases h4 : c < 2097152
  · have henc : encodeChar c = [c / 262144 % 8 + 240, c / 4096 % 64 + 128, c / 64 % 64 + 128, c % 64 + 128] := by
      unfold encodeChar; rw [if_neg h1, if_neg h2, if_neg h3, if_pos h4]
    have hnb : nbChar c = 4 := by unfold nbChar; rw [if_neg h1, if_neg h2, if_neg h3, if_pos h4]
    have hget : getByte (pre ++ (encodeChar c ++ suf)) pre.length
        = some (c / 262144 % 8 + 240) := by
      have h := getByte_append pre (encodeChar c ++ suf) 0
      simp only [Nat.add_zero] at h
      rw [h, henc]; exact getByte_cons_zero _ _
    have hw : utf8_char_width (c / 262144 % 8 + 240) = 4 := by
      unfold utf8_char_width
      rw [if_neg (by omega), if_neg (by omega), if_neg (by omega), if_neg (by omega), if_pos (by omega)]
    have hloop : crLoop (pre ++ (encodeChar c ++ suf)) (pre.length + 1) 3 0
        = some ([c / 4096 % 64 + 128, c / 64 % 64 + 128, c % 64 + 128].foldl (fun v b => v * 64 + b % 64) 0) := by
      have hsplit : pre ++ (encodeChar c ++ suf)
          = (pre ++ [c / 262144 % 8 + 240]) ++ ([c / 4096 % 64 + 128, c / 64 % 64 + 128, c % 64 + 128] ++ suf) := by
        rw [henc]; simp
      have hlen : pre.length + 1 = (pre ++ [c / 262144 % 8 + 240]).length := by simp
      rw [hsplit, hlen]
      exact crLoop_run [c / 4096 % 64 + 128, c / 64 % 64 + 128, c % 64 + 128] (pre ++ [c / 262144 % 8 + 240]) suf 0
        (by intro b hb; simp at hb; omega)
    rw [hnb]
    rw [char_range_at, hget]
    dsimp only
    rw [hw]
    norm_num [hloop, CharRange.mk.injEq]
    omega
  by_cases h5 : c < 67108864
  · have henc : encodeChar c = [c / 16777216 % 4 + 248, c / 262144 % 64 + 128, c / 4096 % 64 + 128, c / 64 % 64 + 128, c % 64 + 128] := by
      unfold encodeChar; rw [if_neg h1, if_neg h2, if_neg h3, if_neg h4, if_pos h5]
    have hnb : nbChar c = 5 := by unfold nbChar; rw [if_neg h1, if_neg h2, if_neg h3, if_neg h4, if_pos h5]
    have hget : getByte (pre ++ (encodeChar c ++ suf)) pre.length
        = some (c / 16777216 % 4 + 248) := by
      have h := getByte_append pre (encodeChar c ++ suf) 0
      simp only [Nat.add_zero] at h
      rw [h, henc]; exact getByte_cons_zero _ _
    have hw : utf8_char_width (c / 16777216 % 4 + 248) = 5 := by
      unfold utf8_char_width
      rw [if_neg (by omega), if_neg (by omega), if_neg (by omega), if_neg (by omega), if_neg (by omega), if_pos (by omega)]
    have hloop : crLoop (pre ++ (encodeChar c ++ suf)) (pre.length + 1) 4 0
        = some ([c / 262144 % 64 + 128, c / 4096 % 64 + 128, c / 64 % 64 + 128, c % 64 + 128].foldl (fun v b => v * 64 + b % 64) 0) := by
      have hsplit : pre ++ (encodeChar c ++ suf)
          = (pre ++ [c / 16777216 % 4 + 248]) ++ ([c / 262144 % 64 + 128, c / 4096 % 64 + 128, c / 64 % 64 + 128, c % 64 + 128] ++ suf) := by
        rw [henc]; simp
      have hlen : pre.length + 1 = (pre ++ [c / 16777216 % 4 + 248]).length := by simp
      rw [hsplit, hlen]
      exact crLoop_run [c / 262144 % 64 + 128, c / 4096 % 64 + 128, c / 64 % 64 + 128, c % 64 + 128] (pre ++ [c / 16777216 % 4 + 248]) suf 0
        (by intro b hb; simp at hb; omega)
    rw [hnb]
    rw [char_range_at, hget]
    dsimp only
    rw [hw]
    norm_num [hloop, CharRange.mk.injEq]
    omega
  · have henc : encodeChar c = [c / 1073741824 % 2 + 252, c / 16777216 % 64 + 128, c / 262144 % 64 + 128, c / 4096 % 64 + 128, c / 64 % 64 + 128, c % 64 + 128] := by
      unfold encodeChar; rw [if_neg h1, if_neg h2, if_neg h3, if_neg h4, if_neg h5]
    have hnb : nbChar c = 6 := by unfold nbChar; rw [if_neg h1, if_neg h2, if_neg h3, if_neg h4, if_neg h5]
    have hget : getByte (pre ++ (encodeChar c ++ suf)) pre.length
        = some (c / 1073741824 % 2 + 252) := by
      have h := getByte_append pre (encodeChar c ++ suf) 0
      simp only [Nat.add_zero] at h
      rw [h, henc]; exact getByte_cons_zero _ _
    have hw : utf8_char_width (c / 1073741824 % 2 + 252) = 6 := by
      unfold utf8_char_width
      rw [if_neg (by omega), if_neg (by omega), if_neg (by omega), if_neg (by omega), if_neg (by omega), if_neg (by omega)]
    have hloop : crLoop (pre ++ (encodeChar c ++ suf)) (pre.length + 1) 5 0
        = some ([c / 16777216 % 64 + 128, c / 262144 % 64 + 128, c / 4096 % 64 + 128, c / 64 % 64 + 128, c % 64 + 128].foldl (fun v b => v * 64 + b % 64) 0) := by
      have hsplit : pre ++ (encodeChar c ++ suf)
          = (pre ++ [c / 1073741824 % 2 + 252]) ++ ([c / 16777216 % 64 + 128, c / 262144 % 64 + 128, c / 4096 % 64 + 128, c / 64 % 64 + 128, c % 64 + 128] ++ suf) := by
        rw [henc]; simp
      have hlen : pre.length + 1 = (pre ++ [c / 1073741824 % 2 + 252]).length := by simp
      rw [hsplit, hlen]
      exact crLoop_run [c / 16777216 % 64 + 128, c / 262144 % 64 + 128, c / 4096 % 64 + 128, c / 64 % 64 + 128, c % 64 + 128] (pre ++ [c / 1073741824 % 2 + 252]) suf 0
        (by intro b hb; simp at hb; omega)
    rw [hnb]
    rw [char_range_at, hget]
    dsimp only
    rw [hw]
    norm_num [hloop, CharRange.mk.injEq]
    omega

theorem from_char_eq (ch : Nat) : from_char ch = encodeChar ch ++ [0] := by
  unfold from_char owned.push_char raw.set_len
  have h0 : strLen [0] = 0 := rfl
  rw [h0]
  simp only [List.take_zero, List.nil_append, Nat.zero_add]
  rw [← encodeChar_length ch, List.take_length]

theorem from_char_dropLast (ch : Nat) : (from_char ch).dropLast = encodeChar ch := by
  rw [from_char_eq]
  simp

theorem from_char_strLen (ch : Nat) : strLen (from_char ch) = nbChar ch := by
  rw [from_char_eq]
  unfold strLen
  simp [encodeChar_length]

/-- C2: for every valid code point `c`, encoding `c` to UTF-8 and decoding
at offset 0 yields back `c` together with the byte length of the encoding:
`char_range_at (from_char c, 0) == CharRange {ch: c, next: len (from_char c)}`. -/
theorem C2_encode_decode_round_trip (c : Nat) (hc : c < 1114112) :
    char_range_at (from_char c).dropLast 0 = some ⟨c, strLen (from_char c)⟩ := by
  have h := char_range_at_encode c [] [] (by omega)
  rw [from_char_dropLast, from_char_strLen]
  simpa using h

/-- Witness for C2 at the concrete code point U+10348 (a four-byte
encoding). -/
theorem C2_witness :
    66376 < 1114112 ∧
      char_range_at (from_char 66376).dropLast 0 = some ⟨66376, strLen (from_char 66376)⟩ :=
  ⟨by norm_num, C2_encode_decode_round_trip 66376 (by norm_num)⟩

/-- C1: evaluation of `is_utf16` at the well-paired sequence consisting of
the single surrogate pair `(0xD800, 0xDC00)` (which encodes U+10000): the
source's inverted bounds test `if i+1u < len { return false; }` makes it
return `false`, where the claim (and the function's own documentation)
requires `true`. -/
theorem C1_is_utf16_surrogate_pair_rejected :
    is_utf16 [0xD800, 0xDC00] = some false := by decide

/-- C3 counterexample: `replace(s, "", to)` does not return `s` unchanged;
at `s = "a"`, `to = "b"` it aborts (`fail_unless!(sep_len > 0)` in
`iter_matches`), modelled as `none`. -/
theorem C3_counterexample : ¬ replace [97] [] [98] = some [97] := by decide

/-- C3 amended: for every string `s` and replacement `to`, `replace` with
an empty search term is a fatal contract violation (the assertion
`sep_len > 0` in the matcher fails), rather than a no-op returning `s`; in
particular it never inserts the replacement anywhere. -/
theorem C3_replace_empty_needle_aborts (s tos : List Nat) :
    replace s [] tos = none := rfl

/-- C10: for every separator character `c`, `split_char("", c)` returns the
one-element vector containing the empty string (the default policy always
emits the trailing field), on both the ASCII byte path and the decoded-char
path. -/
theorem C10_split_char_empty_string (c : Nat) : split_char [] c = some [[]] := by
  unfold split_char split_char_inner
  by_cases hc : c < 128
  · rw [if_pos hc]; rfl
  · rw [if_neg hc]; rfl

/-- C5: an empty needle matches at the range start (for any in-bounds
range), the needle "apple pie" does not occur in "banana", and
`find_str "" "" = Some 0`. -/
theorem C5_find_str_empty_needle :
    (∀ (h : List Nat) (s e : Nat), s ≤ e → e ≤ h.length →
        find_str_between h [] s e = some (some s)) ∧
      find_str [98, 97, 110, 97, 110, 97] [97, 112, 112, 108, 101, 32, 112, 105, 101]
        = some none ∧
      find_str [] [] = some (some 0) := by
  refine ⟨?_, by decide, by decide⟩
  intro h s e _ hel
  unfold find_str_between
  rw [if_pos hel]
  rfl

/-- Witness for C5: the empty needle matches at start 1 of the range
`[1, 2)` of "ab". -/
theorem C5_witness : find_str_between [97, 98] [] 1 2 = some (some 1) :=
  C5_find_str_empty_needle.1 [97, 98] 1 2 (by decide) (by decide)

theorem getByte_lt (s : List Nat) (i : Nat) (hi : i < s.length) :
    getByte s i = s[i]? := by
  unfold getByte
  exact List.getElem?_append_left hi

theorem char_range_at_ascii (s : List Nat) (i b : Nat)
    (hget : getByte s i = some b) (hb : b < 128) :
    char_range_at s i = some ⟨b, i + 1⟩ := by
  rw [char_range_at, hget]
  dsimp only
  have hw : utf8_char_width b = 1 := by unfold utf8_char_width; rw [if_pos hb]
  rw [hw]
  norm_num

theorem decodeCharsLoop_ascii (s : List Nat) (fuel i : Nat)
    (hs : ∀ b ∈ s, b < 128) (hfuel : s.length - i < fuel) :
    decodeCharsLoop s fuel i = some (s.drop i) := by
  induction fuel generalizing i with
  | zero => omega
  | succ fuel ih =>
    by_cases hi : i < s.length
    · have hb : s[i] < 128 := hs _ (s.getElem_mem _)
      have hcr : char_range_at s i = some ⟨s[i], i + 1⟩ :=
        char_range_at_ascii s i s[i]
          (by rw [getByte_lt s i hi]; exact (List.getElem?_eq_getElem hi)) hb
      rw [decodeCharsLoop, if_pos hi, hcr]
      dsimp only
      rw [ih (i + 1) (by omega)]
      rw [List.drop_eq_getElem_cons hi]
      rfl
    · rw [decodeCharsLoop, if_neg hi]
      rw [List.drop_eq_nil_of_le (by omega)]

theorem decode_chars_ascii (s : List Nat) (hs : ∀ b ∈ s, b < 128) :
    decode_chars s = some s := by
  unfold decode_chars
  rw [decodeCharsLoop_ascii s (s.length + 1) 0 hs (by omega)]
  rfl

/-- C4 counterexample: `to_upper` does not leave non-ASCII characters
unchanged: on the valid two-byte string "Ā" (U+0100), the cast
`c as libc::c_char` truncates the code point to 0, and the result is the
one-byte string `"\x00"`. -/
theorem C4_counterexample :
    is_utf8 [196, 128] = true ∧ to_upper [196, 128] = some [0] ∧
      ¬ to_upper [196, 128] = some [196, 128] := by
  refine ⟨by decide, by decide, by decide⟩

/-- C4 amended: case mapping is ASCII-only and correct on ASCII input: for
every string of ASCII bytes, `to_upper` maps each lowercase letter to its
uppercase counterpart and leaves every other ASCII character unchanged
(in particular `to_upper "abcDEF:.;" = "ABCDEF:.;"`); characters outside
the ASCII range are not preserved (they are truncated through the
`c_char` cast, see the counterexample). -/
theorem C4_to_upper_ascii :
    (∀ s : List Nat, (∀ b ∈ s, b < 128) → to_upper s = some (s.map ascii_to_upper)) ∧
      to_upper [97, 98, 99, 68, 69, 70, 58, 46, 59]
        = some [65, 66, 67, 68, 69, 70, 58, 46, 59] := by
  refine ⟨?_, by decide⟩
  intro s hs
  unfold to_upper map
  rw [decode_chars_ascii s hs]
  dsimp only [Option.map]
  congr 1
  induction s with
  | nil => rfl
  | cons b bs ih =>
    have hb : b < 128 := hs b (List.mem_cons_self b bs)
    have hrest := ih (fun x hx => hs x (List.mem_cons_of_mem b hx))
    have hff : char_of_c_char (toupper (c_char_of_char b)) = ascii_to_upper b := by
      unfold char_of_c_char toupper c_char_of_char ascii_to_upper
      rw [if_pos (by omega : b % 256 < 128)]
      by_cases hlow : 97 ≤ b ∧ b ≤ 122
      · rw [if_pos hlow,
          if_pos (show (97 : Int) ≤ (b : Int) % 256 ∧ (b : Int) % 256 ≤ 122 by omega)]
        omega
      · rw [if_neg hlow,
          if_neg (show ¬ ((97 : Int) ≤ (b : Int) % 256 ∧ (b : Int) % 256 ≤ 122) by omega)]
        omega
    have henc : encodeChar (ascii_to_upper b) = [ascii_to_upper b] := by
      unfold encodeChar
      rw [if_pos ?hlt]
      case hlt => unfold ascii_to_upper; split_ifs <;> omega
    simp only [List.map_cons, List.flatten_cons, hff, henc, hrest]
    rfl

/-- Witness for C4 at "az@": lowercase mapped up, other ASCII unchanged. -/
theorem C4_witness : to_upper [97, 122, 64] = some ([97, 122, 64].map ascii_to_upper) :=
  C4_to_upper_ascii.1 [97, 122, 64] (by decide)

theorem byteCmp_eq (x y : Nat) : byteCmp x y = Ordering.eq ↔ x = y := by
  unfold byteCmp
  split_ifs <;> simp <;> omega

theorem byteCmp_lt (x y : Nat) : byteCmp x y = Ordering.lt ↔ x < y := by
  unfold byteCmp
  split_ifs <;> simp <;> omega

theorem byteCmp_gt (x y : Nat) : byteCmp x y = Ordering.gt ↔ y < x := by
  unfold byteCmp
  split_ifs <;> simp <;> omega

theorem cmp_eq_iff (a b : List Nat) : cmp a b = Ordering.eq ↔ a = b := by
  induction a generalizing b with
  | nil => cases b <;> simp [cmp]
  | cons x xs ih =>
    cases b with
    | nil => simp [cmp]
    | cons y ys =>
      rcases hbc : byteCmp x y with _ | _ | _
      · have hxy : x < y := (byteCmp_lt x y).mp hbc
        simp only [cmp, hbc, List.cons.injEq]
        constructor
        · intro h
          exact absurd h (by decide)
        · rintro ⟨h1, h2⟩
          omega
      · have hxy : x = y := (byteCmp_eq x y).mp hbc
        subst hxy
        simp only [cmp, hbc, List.cons.injEq, true_and]
        exact ih ys
      · have hxy : y < x := (byteCmp_gt x y).mp hbc
        simp only [cmp, hbc, List.cons.injEq]
        constructor
        · intro h
          exact absurd h (by decide)
        · rintro ⟨h1, h2⟩
          omega

theorem memcmpBytes_eq_zero (a b : List Nat) (hl : a.length = b.length) :
    memcmpBytes a b = 0 ↔ a = b := by
  induction a generalizing b with
  | nil =>
    cases b with
    | nil => simp [memcmpBytes]
    | cons y ys => simp at hl
  | cons x xs ih =>
    cases b with
    | nil => simp at hl
    | cons y ys =>
      unfold memcmpBytes
      split_ifs with h1 h2
      · simp only [List.cons.injEq]
        constructor
        · intro h
          exact absurd h (by decide)
        · rintro ⟨hh, _⟩
          omega
      · simp only [List.cons.injEq]
        constructor
        · intro h
          exact absurd h (by decide)
        · rintro ⟨hh, _⟩
          omega
      · have hxy : x = y := by omega
        subst hxy
        simp only [List.cons.injEq, true_and]
        exact ih ys (by simpa using hl)

theorem eq_slice_iff (a b : List Nat) : eq_slice a b = true ↔ a = b := by
  unfold eq_slice
  by_cases hl : a.length = b.length
  · rw [if_pos hl]
    simpa using memcmpBytes_eq_zero a b hl
  · rw [if_neg hl]
    simp only [Bool.false_eq_true, false_iff]
    intro hab
    exact hl (by rw [hab])

theorem cmp_append_lt (a t : List Nat) (ht : t ≠ []) :
    cmp a (a ++ t) = Ordering.lt ∧ cmp (a ++ t) a = Ordering.gt := by
  induction a with
  | nil =>
    cases t with
    | nil => exact absurd rfl ht
    | cons x xs => simp [cmp]
  | cons x xs ih =>
    have hx : byteCmp x x = Ordering.eq := (byteCmp_eq x x).mpr rfl
    simpa [cmp, hx] using ih

theorem cmp_lt_iff_gt (a b : List Nat) : cmp a b = Ordering.lt ↔ cmp b a = Ordering.gt := by
  induction a generalizing b with
  | nil => cases b <;> simp [cmp]
  | cons x xs ih =>
    cases b with
    | nil => simp [cmp]
    | cons y ys =>
      rcases hbc : byteCmp x y with _ | _ | _
      · have hyx : byteCmp y x = Ordering.gt := (byteCmp_gt y x).mpr ((byteCmp_lt x y).mp hbc)
        simp [cmp, hbc, hyx]
      · have hxy : x = y := (byteCmp_eq x y).mp hbc
        subst hxy
        simp [cmp, hbc, ih]
      · have hyx : byteCmp y x = Ordering.lt := (byteCmp_lt y x).mpr ((byteCmp_gt x y).mp hbc)
        simp [cmp, hbc, hyx]

theorem cmp_trans_lt (a b c : List Nat) (h1 : cmp a b = Ordering.lt)
    (h2 : cmp b c = Ordering.lt) : cmp a c = Ordering.lt := by
  induction a generalizing b c with
  | nil =>
    cases c with
    | nil =>
      cases b with
      | nil => simp [cmp] at h1
      | cons y ys => simp [cmp] at h2
    | cons z zs => simp [cmp]
  | cons x xs ih =>
    cases b with
    | nil => simp [cmp] at h1
    | cons y ys =>
      cases c with
      | nil => simp [cmp] at h2
      | cons z zs =>
        rcases hxy : byteCmp x y with _ | _ | _ <;> rcases hyz : byteCmp y z with _ | _ | _
        · have hxz : byteCmp x z = Ordering.lt := by
            have u1 := (byteCmp_lt x y).mp hxy
            have u2 := (byteCmp_lt y z).mp hyz
            exact (byteCmp_lt x z).mpr (by omega)
          simp [cmp, hxz]
        · have hy : y = z := (byteCmp_eq y z).mp hyz
          subst hy
          simp [cmp, hxy]
        · simp [cmp, hxy, hyz] at h2
        · have hx : x = y := (byteCmp_eq x y).mp hxy
          subst hx
          simp [cmp, hyz]
        · have hx : x = y := (byteCmp_eq x y).mp hxy
          have hy : y = z := (byteCmp_eq y z).mp hyz
          subst hx
          subst hy
          simp only [cmp, hxy] at h1 h2 ⊢
          exact ih ys zs h1 h2
        · simp [cmp, hxy, hyz] at h2
        · simp [cmp, hxy] at h1
        · simp [cmp, hxy] at h1
        · simp [cmp, hxy] at h1

/-- C8: `cmp` is the byte-wise comparison defining a total order consistent
with equality: a string that is a proper prefix of another compares as less
(and the longer as greater); `cmp a b = Equal` exactly when `a` and `b`
have identical byte content, which is exactly when `eq_slice a b`;
comparison is antisymmetric (`lt` one way is `gt` the other) and `lt` is
transitive. -/
theorem C8_cmp_total_order :
    (∀ a b : List Nat, cmp a b = Ordering.eq ↔ a = b) ∧
    (∀ a b : List Nat, (cmp a b = Ordering.eq ↔ eq_slice a b = true)) ∧
    (∀ a t : List Nat, t ≠ [] →
      cmp a (a ++ t) = Ordering.lt ∧ cmp (a ++ t) a = Ordering.gt) ∧
    (∀ a b : List Nat, cmp a b = Ordering.lt ↔ cmp b a = Ordering.gt) ∧
    (∀ a b c : List Nat, cmp a b = Ordering.lt → cmp b c = Ordering.lt →
      cmp a c = Ordering.lt) := by
  refine ⟨cmp_eq_iff, ?_, cmp_append_lt, cmp_lt_iff_gt, cmp_trans_lt⟩
  intro a b
  rw [cmp_eq_iff, eq_slice_iff]

/-- Witness for C8: "a" is less than "ab", and "ab" equals "ab" under both
`cmp` and `eq_slice`. -/
theorem C8_witness :
    cmp [97] [97, 98] = Ordering.lt ∧ (cmp [97, 98] [97, 98] = Ordering.eq ↔
      eq_slice [97, 98] [97, 98] = true) :=
  ⟨(C8_cmp_total_order.2.2.1 [97] [98] (by decide)).1,
    C8_cmp_total_order.2.1 [97, 98] [97, 98]⟩

theorem sentinel_append (l : List Nat) :
    sentinelOk (l ++ [0]) ∧ strLen (l ++ [0]) = l.length := by
  have hlen : (l ++ [0]).length = l.length + 1 := by simp
  have hsl : strLen (l ++ [0]) = l.length := by unfold strLen; omega
  refine ⟨⟨by omega, ?_⟩, hsl⟩
  rw [hsl]
  have hget : (l ++ [0])[l.length]? = some 0 := by
    rw [List.getElem?_append_right (le_refl _)]
    simp
  simp [List.getD_eq_getElem?_getD, hget]

theorem set_len_eq (v : List Nat) (n : Nat) :
    raw.set_len v n = v.take n ++ [0] := rfl

theorem push_char_eq (v : List Nat) (ch : Nat) :
    owned.push_char v ch = v.take (strLen v) ++ encodeChar ch ++ [0] := by
  unfold owned.push_char raw.set_len
  have hl : (v.take (strLen v) ++ encodeChar ch).length = strLen v + nbChar ch := by
    simp [encodeChar_length]
    unfold strLen
    omega
  rw [← hl, List.take_length, List.append_assoc]

theorem push_str_eq (v rhs : List Nat) :
    owned.push_str v rhs = v.take (strLen v) ++ rhs ++ [0] := by
  unfold owned.push_str raw.set_len
  have hl : (v.take (strLen v) ++ rhs).length = strLen v + rhs.length := by
    simp
    unfold strLen
    omega
  rw [← hl, List.take_length, List.append_assoc]

/-- C9: every buffer-producing operation (`raw::set_len`, `push_char`,
`push_str`, `pop_char`, `raw::slice_bytes_unique`) leaves the zero sentinel
immediately after the logical content: the byte at offset `len` of the
result is 0 and `len` counts exactly the bytes before it. -/
theorem C9_sentinel_invariant :
    (∀ (v : List Nat) (n : Nat), sentinelOk (raw.set_len v n) ∧
      (n ≤ v.length → strLen (raw.set_len v n) = n)) ∧
    (∀ (v : List Nat) (ch : Nat), sentinelOk (owned.push_char v ch) ∧
      strLen (owned.push_char v ch) = strLen v + nbChar ch) ∧
    (∀ (v rhs : List Nat), sentinelOk (owned.push_str v rhs) ∧
      strLen (owned.push_str v rhs) = strLen v + rhs.length) ∧
    (∀ (v : List Nat) (ch : Nat) (v' : List Nat),
      owned.pop_char v = some (ch, v') → sentinelOk v') ∧
    (∀ (v : List Nat) (b e : Nat) (r : List Nat),
      raw.slice_bytes_unique v b e = some r → sentinelOk r ∧ strLen r = e - b) := by
  refine ⟨?_, ?_, ?_, ?_, ?_⟩
  · intro v n
    rw [set_len_eq]
    refine ⟨(sentinel_append (v.take n)).1, fun hn => ?_⟩
    rw [(sentinel_append (v.take n)).2]
    simp [hn]
  · intro v ch
    rw [push_char_eq]
    refine ⟨(sentinel_append _).1, ?_⟩
    rw [(sentinel_append _).2]
    simp [encodeChar_length]
    unfold strLen
    omega
  · intro v rhs
    rw [push_str_eq]
    refine ⟨(sentinel_append _).1, ?_⟩
    rw [(sentinel_append _).2]
    simp
    unfold strLen
    omega
  · intro v ch v' h
    unfold owned.pop_char at h
    by_cases hz : strLen v = 0
    · rw [if_pos hz] at h
      cases h
    · rw [if_neg hz] at h
      cases hcr : char_range_at_reverse v.dropLast (strLen v) with
      | none => rw [hcr] at h; cases h
      | some cr =>
        rw [hcr] at h
        have h2 : (cr.ch, raw.set_len v cr.next) = (ch, v') := by simpa using h
        have hv' : v' = raw.set_len v cr.next := (congrArg Prod.snd h2).symm
        rw [hv', set_len_eq]
        exact (sentinel_append _).1
  · intro v b e r h
    unfold raw.slice_bytes_unique at h
    by_cases hbe : b ≤ e ∧ e ≤ v.length
    · rw [if_pos hbe] at h
      have hr : r = (v.drop b).take (e - b) ++ [0] := (Option.some.inj h).symm
      rw [hr]
      refine ⟨(sentinel_append _).1, ?_⟩
      rw [(sentinel_append _).2]
      simp
      omega
    · rw [if_neg hbe] at h
      cases h

/-- Witness for C9: concrete instances of the hypothesis-guarded parts, on
the buffer of "a" (byte 97 plus sentinel). -/
theorem C9_witness :
    strLen (raw.set_len [97, 0] 1) = 1 ∧ sentinelOk [0] ∧
      sentinelOk [98, 0] ∧ strLen [98, 0] = 2 - 1 :=
  ⟨(C9_sentinel_invariant.1 [97, 0] 1).2 (by decide),
    C9_sentinel_invariant.2.2.2.1 [97, 0] 97 [0] (by decide),
    (C9_sentinel_invariant.2.2.2.2 [97, 98, 0] 1 2 [98, 0] (by decide)).1,
    (C9_sentinel_invariant.2.2.2.2 [97, 98, 0] 1 2 [98, 0] (by decide)).2⟩

/-! ### Split/join machinery -/

theorem flatE_nil : flatE [] = [] := rfl

theorem flatE_cons (c : Nat) (cs : List Nat) :
    flatE (c :: cs) = encodeChar c ++ flatE cs := by
  simp [flatE]

theorem slice_content_extract (u fld rest : List Nat) :
    slice_content (u ++ fld ++ rest) u.length (u.length + fld.length)
      = some fld := by
  unfold slice_content
  rw [if_pos (by refine ⟨by omega, ?_⟩; simp; omega)]
  have hassoc : (u ++ fld ++ rest) ++ [0] = u ++ (fld ++ (rest ++ [0])) := by simp
  rw [hassoc, List.drop_left]
  have he : u.length + fld.length - u.length = fld.length := by omega
  rw [he, List.take_left]

theorem getD_junction (u : List Nat) (x : Nat) (rest : List Nat) :
    (u ++ (x :: rest)).getD u.length 0 = x := by
  rw [List.getD_eq_getElem?_getD, List.getElem?_append_right (le_refl _)]
  simp

theorem splitSpecB_shape (b : Nat) (xs : List Nat) :
    ∃ f fs, splitSpecB b xs = f :: fs := by
  induction xs with
  | nil => exact ⟨[], [], rfl⟩
  | cons x xs ih =>
    obtain ⟨f, fs, hfs⟩ := ih
    by_cases hx : x = b
    · refine ⟨[], f :: fs, ?_⟩
      unfold splitSpecB
      rw [hfs]
      dsimp only
      rw [if_pos hx]
    · refine ⟨x :: f, fs, ?_⟩
      unfold splitSpecB
      rw [hfs]
      dsimp only
      rw [if_neg hx]

theorem splitSpec_shape (sepfn : Nat → Bool) (cs : List Nat) :
    ∃ f fs, splitSpec sepfn cs = f :: fs := by
  induction cs with
  | nil => exact ⟨[], [], rfl⟩
  | cons c cs ih =>
    obtain ⟨f, fs, hfs⟩ := ih
    by_cases hc : sepfn c
    · refine ⟨[], f :: fs, ?_⟩
      unfold splitSpec
      rw [hfs]
      dsimp only
      rw [if_pos hc]
    · refine ⟨c :: f, fs, ?_⟩
      unfold splitSpec
      rw [hfs]
      dsimp only
      rw [if_neg hc]

theorem split_char_loop_run (b : Nat) (rest : List Nat) :
    ∀ (u fieldB : List Nat) (done : Nat) (acc : List (List Nat)) (fuel : Nat),
      done ≤ (u ++ fieldB).length → rest.length < fuel →
      split_char_loop (u ++ fieldB ++ rest) b (u ++ fieldB ++ rest).length true true
          fuel (u ++ fieldB).length u.length done acc
        = some (acc ++ consHead fieldB (splitSpecB b rest)) := by
  induction rest with
  | nil =>
    intro u fieldB done acc fuel hdone hfuel
    cases fuel with
    | zero => omega
    | succ f =>
      rw [split_char_loop]
      rw [if_neg (by simp)]
      rw [if_pos (Or.inl rfl)]
      have hslice : slice_content (u ++ fieldB ++ ([] : List Nat)) u.length
          (u ++ fieldB ++ ([] : List Nat)).length = some fieldB := by
        have h := slice_content_extract u fieldB []
        simpa using h
      rw [hslice]
      simp [consHead, splitSpecB]
  | cons x rest ih =>
    intro u fieldB done acc fuel hdone hfuel
    cases fuel with
    | zero => omega
    | succ f =>
      have hi : (u ++ fieldB).length < (u ++ fieldB ++ (x :: rest)).length := by
        simp
      have hgetd : (u ++ fieldB ++ (x :: rest)).getD (u ++ fieldB).length 0 = x :=
        getD_junction (u ++ fieldB) x rest
      rw [split_char_loop]
      rw [if_pos ⟨hi, by omega⟩, hgetd]
      obtain ⟨ff, ffs, hshape⟩ := splitSpecB_shape b rest
      by_cases hx : x = b
      · have hss : splitSpecB b (x :: rest) = [] :: ff :: ffs := by
          unfold splitSpecB
          rw [hshape]
          dsimp only
          rw [if_pos hx]
        rw [if_pos hx, if_pos (Or.inl rfl)]
        have hslice : slice_content (u ++ fieldB ++ (x :: rest)) u.length
            (u ++ fieldB).length = some fieldB := by
          have h := slice_content_extract u fieldB (x :: rest)
          simpa using h
        rw [hslice]
        dsimp only
        calc split_char_loop (u ++ fieldB ++ (x :: rest)) b
              (u ++ fieldB ++ (x :: rest)).length true true f
              ((u ++ fieldB).length + 1) ((u ++ fieldB).length + 1) (done + 1)
              (acc ++ [fieldB])
            = split_char_loop ((u ++ fieldB ++ [x]) ++ ([] : List Nat) ++ rest) b
              ((u ++ fieldB ++ [x]) ++ ([] : List Nat) ++ rest).length true true f
              ((u ++ fieldB ++ [x]) ++ ([] : List Nat)).length (u ++ fieldB ++ [x]).length
              (done + 1) (acc ++ [fieldB]) := by
              have e1 : (u ++ fieldB ++ [x]) ++ ([] : List Nat) ++ rest
                  = u ++ fieldB ++ (x :: rest) := by simp
              have e2 : ((u ++ fieldB ++ [x]) ++ ([] : List Nat)).length
                  = (u ++ fieldB).length + 1 := by simp; omega
              have e3 : (u ++ fieldB ++ [x]).length = (u ++ fieldB).length + 1 := by
                simp; omega
              rw [e1, e2, e3]
          _ = some ((acc ++ [fieldB]) ++ consHead [] (splitSpecB b rest)) := by
              exact ih (u ++ fieldB ++ [x]) [] (done + 1) (acc ++ [fieldB]) f
                (by simp at hdone ⊢; omega) (by simpa using hfuel)
          _ = some (acc ++ consHead fieldB (splitSpecB b (x :: rest))) := by
              rw [hshape, hss]
              simp [consHead]
      · have hss : splitSpecB b (x :: rest) = (x :: ff) :: ffs := by
          unfold splitSpecB
          rw [hshape]
          dsimp only
          rw [if_neg hx]
        rw [if_neg hx]
        calc split_char_loop (u ++ fieldB ++ (x :: rest)) b
              (u ++ fieldB ++ (x :: rest)).length true true f
              ((u ++ fieldB).length + 1) u.length done acc
            = split_char_loop (u ++ (fieldB ++ [x]) ++ rest) b
              (u ++ (fieldB ++ [x]) ++ rest).length true true f
              (u ++ (fieldB ++ [x])).length u.length done acc := by
              have e1 : u ++ (fieldB ++ [x]) ++ rest = u ++ fieldB ++ (x :: rest) := by
                simp
              have e2 : (u ++ (fieldB ++ [x])).length = (u ++ fieldB).length + 1 := by
                simp
                omega
              rw [e1, e2]
          _ = some (acc ++ consHead (fieldB ++ [x]) (splitSpecB b rest)) :=
              ih u (fieldB ++ [x]) done acc f (by simp at hdone ⊢; omega)
                (by simpa using hfuel)
          _ = some (acc ++ consHead fieldB (splitSpecB b (x :: rest))) := by
              rw [hshape, hss]
              simp [consHead]

theorem connectLoop_false (v : List (List Nat)) (sep : List Nat) :
    ∀ s : List Nat, connectLoop v sep false s
      = s ++ (v.map (fun x => sep ++ x)).flatten := by
  induction v with
  | nil => intro s; simp [connectLoop]
  | cons ss rest ih =>
    intro s
    rw [connectLoop]
    simp only [if_neg (by simp : ¬ false = true)]
    rw [ih (s ++ sep ++ ss)]
    simp

theorem connect_cons (x : List Nat) (xs : List (List Nat)) (sep : List Nat) :
    connect (x :: xs) sep = x ++ (xs.map (fun y => sep ++ y)).flatten := by
  unfold connect
  rw [connectLoop]
  simp only [if_pos rfl]
  rw [connectLoop_false]
  simp

theorem connect_splitSpecB (b : Nat) (xs : List Nat) :
    connect (splitSpecB b xs) [b] = xs := by
  induction xs with
  | nil => rfl
  | cons x xs ih =>
    obtain ⟨f, fs, hshape⟩ := splitSpecB_shape b xs
    rw [hshape] at ih
    by_cases hx : x = b
    · have hss : splitSpecB b (x :: xs) = [] :: f :: fs := by
        unfold splitSpecB
        rw [hshape]
        dsimp only
        rw [if_pos hx]
      rw [hss, connect_cons]
      rw [connect_cons] at ih
      simp only [List.map_cons, List.flatten_cons, List.nil_append]
      subst hx
      rw [← ih]
      simp
    · have hss : splitSpecB b (x :: xs) = (x :: f) :: fs := by
        unfold splitSpecB
        rw [hshape]
        dsimp only
        rw [if_neg hx]
      rw [hss, connect_cons]
      rw [connect_cons] at ih
      rw [List.cons_append, ih]

theorem split_char_ascii (s : List Nat) (sep : Nat) (hsep : sep < 128) :
    split_char s sep = some (splitSpecB sep s) := by
  unfold split_char split_char_inner
  rw [if_pos hsep]
  obtain ⟨f, fs, hshape⟩ := splitSpecB_shape sep s
  have h := split_char_loop_run sep s [] [] 0 [] (s.length + 1) (by simp) (by omega)
  simp only [List.nil_append, List.length_nil] at h
  rw [hshape] at h
  rw [h, hshape]
  simp [consHead]

theorem split_inner_loop_run (sepfn : Nat → Bool) (csRest : List Nat) :
    ∀ (u fieldB : List Nat) (done : Nat) (acc : List (List Nat)) (fuel : Nat),
      (∀ c ∈ csRest, c < 2 ^ 31) →
      done ≤ (u ++ fieldB).length → (flatE csRest).length < fuel →
      split_inner_loop (u ++ fieldB ++ flatE csRest) sepfn
          (u ++ fieldB ++ flatE csRest).length true true
          fuel (u ++ fieldB).length u.length done acc
        = some (acc ++ consHead fieldB ((splitSpec sepfn csRest).map flatE)) := by
  induction csRest with
  | nil =>
    intro u fieldB done acc fuel _ hdone hfuel
    cases fuel with
    | zero => simp [flatE] at hfuel
    | succ f =>
      rw [split_inner_loop]
      rw [if_neg (by simp [flatE])]
      rw [if_pos (Or.inl rfl)]
      have hslice : slice_content (u ++ fieldB ++ flatE []) u.length
          (u ++ fieldB ++ flatE []).length = some fieldB := by
        have h := slice_content_extract u fieldB (flatE [])
        simpa [flatE] using h
      rw [hslice]
      simp [consHead, splitSpec, flatE]
  | cons c cs ih =>
    intro u fieldB done acc fuel hval hdone hfuel
    cases fuel with
    | zero => omega
    | succ f =>
      have hnb : 1 ≤ (encodeChar c).length := by
        rw [encodeChar_length]; exact nbChar_pos c
      have hflat : flatE (c :: cs) = encodeChar c ++ flatE cs := flatE_cons c cs
      have hi : (u ++ fieldB).length < (u ++ fieldB ++ flatE (c :: cs)).length := by
        rw [hflat]; simp; omega
      have hcr : char_range_at (u ++ fieldB ++ flatE (c :: cs)) (u ++ fieldB).length
          = some ⟨c, (u ++ fieldB).length + nbChar c⟩ := by
        rw [hflat, ← List.append_assoc]
        have h := char_range_at_encode c (u ++ fieldB) (flatE cs)
          (hval c (List.mem_cons_self c cs))
        simpa using h
      rw [split_inner_loop]
      rw [if_pos ⟨hi, by omega⟩, hcr]
      dsimp only
      obtain ⟨ff, ffs, hshape⟩ := splitSpec_shape sepfn cs
      by_cases hsep : sepfn c = true
      · have hss : splitSpec sepfn (c :: cs) = [] :: ff :: ffs := by
          unfold splitSpec
          rw [hshape]
          dsimp only
          rw [if_pos hsep]
        rw [if_pos hsep, if_pos (Or.inl rfl)]
        have hslice : slice_content (u ++ fieldB ++ flatE (c :: cs)) u.length
            (u ++ fieldB).length = some fieldB := by
          have h := slice_content_extract u fieldB (flatE (c :: cs))
          simpa using h
        rw [hslice]
        dsimp only
        calc split_inner_loop (u ++ fieldB ++ flatE (c :: cs)) sepfn
              (u ++ fieldB ++ flatE (c :: cs)).length true true f
              ((u ++ fieldB).length + nbChar c) ((u ++ fieldB).length + nbChar c)
              (done + 1) (acc ++ [fieldB])
            = split_inner_loop ((u ++ fieldB ++ encodeChar c) ++ ([] : List Nat) ++ flatE cs)
              sepfn ((u ++ fieldB ++ encodeChar c) ++ ([] : List Nat) ++ flatE cs).length
              true true f ((u ++ fieldB ++ encodeChar c) ++ ([] : List Nat)).length
              (u ++ fieldB ++ encodeChar c).length (done + 1) (acc ++ [fieldB]) := by
              have e1 : (u ++ fieldB ++ encodeChar c) ++ ([] : List Nat) ++ flatE cs
                  = u ++ fieldB ++ flatE (c :: cs) := by simp [hflat]
              have e2 : ((u ++ fieldB ++ encodeChar c) ++ ([] : List Nat)).length
                  = (u ++ fieldB).length + nbChar c := by
                simp [encodeChar_length]
                omega
              have e3 : (u ++ fieldB ++ encodeChar c).length
                  = (u ++ fieldB).length + nbChar c := by
                simp [encodeChar_length]
                omega
              rw [e1, e2, e3]
          _ = some ((acc ++ [fieldB]) ++ consHead []
                ((splitSpec sepfn cs).map flatE)) := by
              refine ih (u ++ fieldB ++ encodeChar c) [] (done + 1) (acc ++ [fieldB]) f
                (fun x hx => hval x (List.mem_cons_of_mem c hx)) ?_ ?_
              · simp at hdone ⊢
                omega
              · rw [hflat] at hfuel
                simp at hfuel ⊢
                omega
          _ = some (acc ++ consHead fieldB
                ((splitSpec sepfn (c :: cs)).map flatE)) := by
              rw [hshape, hss]
              simp [consHead, flatE_nil]
      · have hss : splitSpec sepfn (c :: cs) = (c :: ff) :: ffs := by
          unfold splitSpec
          rw [hshape]
          dsimp only
          rw [if_neg hsep]
        rw [if_neg hsep]
        calc split_inner_loop (u ++ fieldB ++ flatE (c :: cs)) sepfn
              (u ++ fieldB ++ flatE (c :: cs)).length true true f
              ((u ++ fieldB).length + nbChar c) u.length done acc
            = split_inner_loop (u ++ (fieldB ++ encodeChar c) ++ flatE cs) sepfn
              (u ++ (fieldB ++ encodeChar c) ++ flatE cs).length true true f
              (u ++ (fieldB ++ encodeChar c)).length u.length done acc := by
              have e1 : u ++ (fieldB ++ encodeChar c) ++ flatE cs
                  = u ++ fieldB ++ flatE (c :: cs) := by simp [hflat]
              have e2 : (u ++ (fieldB ++ encodeChar c)).length
                  = (u ++ fieldB).length + nbChar c := by
                simp [encodeChar_length]
                omega
              rw [e1, e2]
          _ = some (acc ++ consHead (fieldB ++ encodeChar c)
                ((splitSpec sepfn cs).map flatE)) := by
              refine ih u (fieldB ++ encodeChar c) done acc f
                (fun x hx => hval x (List.mem_cons_of_mem c hx)) ?_ ?_
              · simp at hdone ⊢
                omega
              · rw [hflat] at hfuel
                simp at hfuel ⊢
                omega
          _ = some (acc ++ consHead fieldB
                ((splitSpec sepfn (c :: cs)).map flatE)) := by
              rw [hshape, hss]
              simp [consHead, flatE_cons]

theorem connect_splitSpec_flatE (sep : Nat) (cs : List Nat) :
    connect ((splitSpec (fun cur => cur == sep) cs).map flatE) (encodeChar sep)
      = flatE cs := by
  induction cs with
  | nil =>
    rw [show splitSpec (fun cur => cur == sep) [] = [[]] from rfl]
    simp only [List.map_cons, List.map_nil]
    rw [connect_cons]
    simp [flatE]
  | cons c cs ih =>
    obtain ⟨ff, ffs, hshape⟩ := splitSpec_shape (fun cur => cur == sep) cs
    rw [hshape] at ih
    simp only [List.map_cons] at ih
    rw [connect_cons] at ih
    by_cases hc : (c == sep) = true
    · have hcs : c = sep := by simpa using hc
      have hss : splitSpec (fun cur => cur == sep) (c :: cs) = [] :: ff :: ffs := by
        unfold splitSpec
        rw [hshape]
        dsimp only
        rw [if_pos hc]
      rw [hss]
      simp only [List.map_cons]
      rw [connect_cons]
      simp only [List.map_cons, List.flatten_cons, List.nil_append]
      rw [flatE_cons, hcs, List.append_assoc, ih, flatE_nil, List.nil_append]
    · have hss : splitSpec (fun cur => cur == sep) (c :: cs) = (c :: ff) :: ffs := by
        unfold splitSpec
        rw [hshape]
        dsimp only
        rw [if_neg hc]
      rw [hss]
      simp only [List.map_cons]
      rw [connect_cons, flatE_cons, flatE_cons, List.append_assoc, ih]

theorem split_char_canon (sep : Nat) (cs : List Nat) (hsep : ¬ sep < 128)
    (hval : ∀ c ∈ cs, c < 2 ^ 31) :
    split_char (flatE cs) sep
      = some ((splitSpec (fun cur => cur == sep) cs).map flatE) := by
  unfold split_char split_char_inner split_inner
  rw [if_neg hsep]
  have h := split_inner_loop_run (fun cur => cur == sep) cs [] [] 0 []
    ((flatE cs).length + 1) hval (by simp) (by omega)
  simp only [List.nil_append, List.length_nil] at h
  obtain ⟨ff, ffs, hshape⟩ := splitSpec_shape (fun cur => cur == sep) cs
  rw [hshape] at h ⊢
  rw [h]
  simp [consHead]

/-- C6 counterexample: the split/join inverse fails on a string that
`is_utf8` itself accepts: `[0xE0, 0x82, 0x80]` is an overlong three-byte
encoding of U+0080, so splitting at the character U+0080 consumes the three
bytes, and joining re-inserts the canonical two-byte encoding
`from_char 0x80 = [0xC2, 0x80]`. -/
theorem C6_counterexample :
    is_utf8 [224, 130, 128] = true ∧
      split_char [224, 130, 128] 128 = some [[], []] ∧
      ¬ connect [[], []] (from_char 128).dropLast = [224, 130, 128] :=
  ⟨by decide, by decide, by decide⟩

/-- C6 amended: split/join inverse with the default empty-preserving policy:
`connect (split_char s sep) (from_char sep) = s` for every string `s` when
the separator is ASCII, and for every canonically (shortest-form) encoded
string when the separator is any larger character; `is_utf8` also admits
overlong encodings, on which the inverse can fail for a multi-byte
separator (see the counterexample). -/
theorem C6_split_join (sep : Nat) (s : List Nat)
    (h : sep < 128 ∨ ∃ cs, (∀ c ∈ cs, c < 2 ^ 31) ∧ s = flatE cs) :
    ∃ fields, split_char s sep = some fields ∧
      connect fields (from_char sep).dropLast = s := by
  rw [from_char_dropLast]
  by_cases hsep : sep < 128
  · refine ⟨splitSpecB sep s, split_char_ascii s sep hsep, ?_⟩
    have henc : encodeChar sep = [sep] := by unfold encodeChar; rw [if_pos hsep]
    rw [henc]
    exact connect_splitSpecB sep s
  · rcases h with h | ⟨cs, hval, rfl⟩
    · exact absurd h hsep
    · exact ⟨_, split_char_canon sep cs hsep hval, connect_splitSpec_flatE sep cs⟩

/-- Witness for C6: splitting "a.b" at '.' and joining with "." restores
"a.b". -/
theorem C6_witness :
    ∃ fields, split_char [97, 46, 98] 46 = some fields ∧
      connect fields (from_char 46).dropLast = [97, 46, 98] :=
  C6_split_join 46 [97, 46, 98] (Or.inl (by decide))

/-! ### Word-wrap machinery -/

theorem slice_content_ne_nil (s : List Nat) (b e : Nat) (piece : List Nat)
    (h : slice_content s b e = some piece) (hbe : b < e) : piece ≠ [] := by
  unfold slice_content at h
  by_cases hg : b ≤ e ∧ e ≤ s.length + 1
  · rw [if_pos hg] at h
    have hp : piece = ((s ++ [0]).drop b).take (e - b) := (Option.some.inj h).symm
    have hlen : piece.length = min (e - b) (s.length + 1 - b) := by
      rw [hp]
      simp
    intro hnil
    rw [hnil] at hlen
    simp at hlen
    omega
  · rw [if_neg hg] at h
    cases h

theorem split_inner_loop_nonempty (s : List Nat) (sepfn : Nat → Bool) (count : Nat) :
    ∀ (fuel i start done : Nat) (acc : List (List Nat)) (r : List (List Nat)),
      (∀ x ∈ acc, x ≠ []) →
      split_inner_loop s sepfn count false false fuel i start done acc = some r →
      ∀ x ∈ r, x ≠ [] := by
  intro fuel
  induction fuel with
  | zero =>
    intro i start done acc r _ h
    cases h
  | succ fuel ih =>
    intro i start done acc r hacc h
    rw [split_inner_loop] at h
    by_cases hcond : i < s.length ∧ done < count
    · rw [if_pos hcond] at h
      cases hcr : char_range_at s i with
      | none => rw [hcr] at h; cases h
      | some cr =>
        rw [hcr] at h
        dsimp only at h
        by_cases hsep : sepfn cr.ch = true
        · rw [if_pos hsep] at h
          by_cases hstart : (false = true ∨ start < i)
          · rw [if_pos hstart] at h
            cases hsl : slice_content s start i with
            | none => rw [hsl] at h; cases h
            | some piece =>
              rw [hsl] at h
              dsimp only at h
              have hpi : piece ≠ [] :=
                slice_content_ne_nil s start i piece hsl
                  (by rcases hstart with h' | h'
                      · cases h'
                      · exact h')
              refine ih _ _ _ _ r ?_ h
              intro x hx
              rcases List.mem_append.mp hx with hx | hx
              · exact hacc x hx
              · rw [List.mem_singleton.mp hx]
                exact hpi
          · rw [if_neg hstart] at h
            exact ih _ _ _ _ r hacc h
        · rw [if_neg hsep] at h
          exact ih _ _ _ _ r hacc h
    · rw [if_neg hcond] at h
      by_cases hstart : (false = true ∨ start < s.length)
      · rw [if_pos hstart] at h
        cases hsl : slice_content s start s.length with
        | none => rw [hsl] at h; cases h
        | some piece =>
          rw [hsl] at h
          have hpi : piece ≠ [] :=
            slice_content_ne_nil s start s.length piece hsl
              (by rcases hstart with h' | h'
                  · cases h'
                  · exact h')
          have hr : r = acc ++ [piece] := (Option.some.inj h).symm
          rw [hr]
          intro x hx
          rcases List.mem_append.mp hx with hx | hx
          · exact hacc x hx
          · rw [List.mem_singleton.mp hx]
            exact hpi
      · rw [if_neg hstart] at h
        have hr : r = acc := (Option.some.inj h).symm
        rw [hr]
        exact hacc

theorem words_nonempty (s : List Nat) (ws : List (List Nat))
    (h : words s = some ws) : ∀ w ∈ ws, w ≠ [] := by
  unfold words split_nonempty split_inner at h
  exact split_inner_loop_nonempty s (fun c => is_whitespace c) s.length
    (s.length + 1) 0 0 0 [] ws (by intro x hx; cases hx) h

theorem joinSp_nil : joinSp [] = [] := rfl

theorem joinSp_cons (x : List Nat) (xs : List (List Nat)) :
    joinSp (x :: xs) = x ++ (xs.map (fun y => [32] ++ y)).flatten :=
  connect_cons x xs [32]

theorem joinSp_single (w : List Nat) : joinSp [w] = w := by
  rw [joinSp_cons]
  simp

theorem joinSp_ne_nil (g : List (List Nat)) (hg : g ≠ [])
    (hgw : ∀ w ∈ g, w ≠ []) : joinSp g ≠ [] := by
  cases g with
  | nil => exact absurd rfl hg
  | cons x xs =>
    rw [joinSp_cons]
    have hx : x ≠ [] := hgw x (List.mem_cons_self x xs)
    simp
    intro hxe
    exact absurd hxe hx

theorem joinSp_snoc (g : List (List Nat)) (w : List Nat) (hg : g ≠ []) :
    joinSp (g ++ [w]) = joinSp g ++ 32 :: w := by
  cases g with
  | nil => exact absurd rfl hg
  | cons x xs =>
    rw [List.cons_append, joinSp_cons, joinSp_cons]
    simp

theorem swLoop_packGroups (lim : Nat) :
    ∀ (ws : List (List Nat)) (rows : List (List Nat)) (g : List (List Nat)),
      (∀ w ∈ ws, w ≠ []) → (∀ w ∈ g, w ≠ []) →
      swLoop ws rows (joinSp g) lim = rows ++ (packGroups ws g lim).map joinSp := by
  intro ws
  induction ws with
  | nil =>
    intro rows g _ hgw
    by_cases hg : g = []
    · subst hg
      rw [joinSp_nil]
      simp [swLoop, packGroups]
    · rw [swLoop, if_neg (joinSp_ne_nil g hg hgw)]
      rw [packGroups, if_neg hg]
      simp
  | cons w ws ih =>
    intro rows g hws hgw
    have hw : w ≠ [] := hws w (List.mem_cons_self w ws)
    have hws' : ∀ x ∈ ws, x ≠ [] := fun x hx => hws x (List.mem_cons_of_mem w hx)
    rw [swLoop, packGroups]
    by_cases hlim : lim < (joinSp g).length + w.length + 1
    · rw [if_pos hlim, if_pos hlim]
      have hih := ih (rows ++ [joinSp g]) [w] hws'
        (by intro x hx; rw [List.mem_singleton.mp hx]; exact hw)
      rw [joinSp_single] at hih
      rw [hih]
      simp
    · rw [if_neg hlim, if_neg hlim]
      by_cases hg : g = []
      · subst hg
        rw [joinSp_nil]
        simp only [List.length_nil, Nat.lt_irrefl, if_neg (by omega : ¬ 0 < 0),
          List.nil_append]
        have hih := ih rows ([] ++ [w]) hws'
          (by intro x hx; simp at hx; rw [hx]; exact hw)
        rw [show ([] ++ [w] : List (List Nat)) = [w] by simp, joinSp_single] at hih
        simpa using hih
      · have hjg : joinSp g ≠ [] := joinSp_ne_nil g hg hgw
        rw [if_pos (by simpa [List.length_pos] using hjg)]
        have hih := ih rows (g ++ [w]) hws'
          (by intro x hx
              rcases List.mem_append.mp hx with hx | hx
              · exact hgw x hx
              · rw [List.mem_singleton.mp hx]; exact hw)
        rw [joinSp_snoc g w hg] at hih
        rw [show joinSp g ++ [32] ++ w = joinSp g ++ 32 :: w by simp]
        exact hih

theorem packGroups_flatten (lim : Nat) :
    ∀ (ws : List (List Nat)) (g : List (List Nat)),
      (packGroups ws g lim).flatten = g ++ ws := by
  intro ws
  induction ws with
  | nil =>
    intro g
    by_cases hg : g = []
    · subst hg; simp [packGroups]
    · rw [packGroups, if_neg hg]; simp
  | cons w ws ih =>
    intro g
    rw [packGroups]
    by_cases hlim : lim < (joinSp g).length + w.length + 1
    · rw [if_pos hlim]
      simp [ih]
    · rw [if_neg hlim]
      simp [ih]

theorem packGroups_ne_nil (lim : Nat) :
    ∀ (ws : List (List Nat)) (g : List (List Nat)), g ≠ [] →
      ∀ x ∈ packGroups ws g lim, x ≠ [] := by
  intro ws
  induction ws with
  | nil =>
    intro g hg x hx
    rw [packGroups, if_neg hg] at hx
    rw [List.mem_singleton.mp hx]
    exact hg
  | cons w ws ih =>
    intro g hg x hx
    rw [packGroups] at hx
    by_cases hlim : lim < (joinSp g).length + w.length + 1
    · rw [if_pos hlim] at hx
      rcases List.mem_cons.mp hx with hx | hx
      · rw [hx]; exact hg
      · exact ih [w] (by simp) x hx
    · rw [if_neg hlim] at hx
      exact ih (g ++ [w]) (by simp) x hx

theorem packGroups_mem (lim : Nat) :
    ∀ (ws : List (List Nat)) (g : List (List Nat)),
      ∀ x ∈ packGroups ws g lim, ∀ w ∈ x, w ∈ g ∨ w ∈ ws := by
  intro ws
  induction ws with
  | nil =>
    intro g x hx w hw
    by_cases hg : g = []
    · subst hg
      rw [packGroups] at hx
      simp at hx
    · rw [packGroups, if_neg hg] at hx
      rw [List.mem_singleton.mp hx] at hw
      exact Or.inl hw
  | cons v ws ih =>
    intro g x hx w hw
    rw [packGroups] at hx
    by_cases hlim : lim < (joinSp g).length + v.length + 1
    · rw [if_pos hlim] at hx
      rcases List.mem_cons.mp hx with hx | hx
      · rw [hx] at hw
        exact Or.inl hw
      · rcases ih [v] x hx w hw with hv | hv
        · rw [List.mem_singleton.mp hv]
          exact Or.inr (List.mem_cons_self v ws)
        · exact Or.inr (List.mem_cons_of_mem v hv)
    · rw [if_neg hlim] at hx
      rcases ih (g ++ [v]) x hx w hw with hv | hv
      · rcases List.mem_append.mp hv with hv | hv
        · exact Or.inl hv
        · rw [List.mem_singleton.mp hv]
          exact Or.inr (List.mem_cons_self v ws)
      · exact Or.inr (List.mem_cons_of_mem v hv)

/-- C7 amended: `split_within` is the greedy packing `packGroups`: every
output line is the single-space join of a group of consecutive input words
(no word is broken mid-word, and the groups concatenate back to the word
list); a line break occurs exactly when `row_len + word_len + 1` exceeds
the limit, the separating space being charged even when the row is empty;
consequently every output line after the first is non-empty, and the first
line is empty exactly when the very first word already has length ≥ the
limit (a single long word is still placed alone on its own line, after
that empty line). -/
theorem C7_split_within_greedy (ss : List Nat) (lim : Nat) (ws : List (List Nat))
    (hw : words ss = some ws) :
    split_within ss lim = some ((packGroups ws [] lim).map joinSp) ∧
    (packGroups ws [] lim).flatten = ws ∧
    (∀ x ∈ ((packGroups ws [] lim).map joinSp).drop 1, x ≠ []) ∧
    (((packGroups ws [] lim).map joinSp).head? = some [] ↔
      ∃ w0 rest, ws = w0 :: rest ∧ lim < w0.length + 1) := by
  have hnon : ∀ w ∈ ws, w ≠ [] := words_nonempty ss ws hw
  refine ⟨?_, ?_, ?_, ?_⟩
  · unfold split_within
    rw [hw]
    simp only [Option.map_some']
    by_cases hws : ws = []
    · subst hws
      simp [packGroups]
    · rw [if_neg hws]
      have h := swLoop_packGroups lim ws [] [] hnon (by intro x hx; cases hx)
      rw [joinSp_nil] at h
      rw [h]
      simp
  · have h := packGroups_flatten lim ws []
    simpa using h
  · intro x hx
    cases ws with
    | nil => simp [packGroups] at hx
    | cons w0 rest =>
      by_cases hlim : lim < (joinSp ([] : List (List Nat))).length + w0.length + 1
      · rw [packGroups, if_pos hlim] at hx
        simp only [List.map_cons, List.drop_succ_cons, List.drop_zero] at hx
        obtain ⟨grp, hgrp, rfl⟩ := List.mem_map.mp hx
        apply joinSp_ne_nil grp (packGroups_ne_nil lim rest [w0] (by simp) grp hgrp)
        intro w hw'
        rcases packGroups_mem lim rest [w0] grp hgrp w hw' with h' | h'
        · rw [List.mem_singleton.mp h']
          exact hnon w0 (List.mem_cons_self w0 rest)
        · exact hnon w (List.mem_cons_of_mem w0 h')
      · rw [packGroups, if_neg hlim] at hx
        have hx' : x ∈ (packGroups rest ([] ++ [w0]) lim).map joinSp :=
          List.mem_of_mem_drop hx
        obtain ⟨grp, hgrp, rfl⟩ := List.mem_map.mp hx'
        apply joinSp_ne_nil grp
          (packGroups_ne_nil lim rest ([] ++ [w0]) (by simp) grp hgrp)
        intro w hw'
        rcases packGroups_mem lim rest ([] ++ [w0]) grp hgrp w hw' with h' | h'
        · simp at h'
          rw [h']
          exact hnon w0 (List.mem_cons_self w0 rest)
        · exact hnon w (List.mem_cons_of_mem w0 h')
  · have hjn : (joinSp ([] : List (List Nat))).length = 0 := by
      rw [joinSp_nil]
      rfl
    cases ws with
    | nil =>
      constructor
      · intro h
        simp [packGroups] at h
      · rintro ⟨w0, rest, h, _⟩
        cases h
    | cons w0 rest =>
      by_cases hlim : lim < (joinSp ([] : List (List Nat))).length + w0.length + 1
      · rw [packGroups, if_pos hlim]
        simp only [List.map_cons, List.head?_cons, joinSp_nil]
        constructor
        · intro _
          exact ⟨w0, rest, rfl, by rw [hjn] at hlim; omega⟩
        · intro _
          trivial
      · rw [packGroups, if_neg hlim]
        constructor
        · intro h
          rw [List.head?_map] at h
          cases hh : (packGroups rest ([] ++ [w0]) lim).head? with
          | none =>
            rw [hh] at h
            cases h
          | some grp =>
            rw [hh] at h
            have hjoin : joinSp grp = [] := by simpa using h
            have hgrpmem : grp ∈ packGroups rest ([] ++ [w0]) lim :=
              List.mem_of_mem_head? (Option.mem_def.mpr hh)
            have hne := packGroups_ne_nil lim rest ([] ++ [w0]) (by simp) grp hgrpmem
            have hmem := packGroups_mem lim rest ([] ++ [w0]) grp hgrpmem
            refine absurd hjoin (joinSp_ne_nil grp hne ?_)
            intro w hw'
            rcases hmem w hw' with h' | h'
            · simp at h'
              rw [h']
              exact hnon w0 (List.mem_cons_self w0 rest)
            · exact hnon w (List.mem_cons_of_mem w0 h')
        · rintro ⟨w0', rest', heq, hlim'⟩
          injection heq with h1 h2
          subst h1
          rw [hjn] at hlim
          exact absurd hlim' (by omega)

/-- Witness for C7: wrapping "a bb" at limit 5 packs both words onto one
line. -/
theorem C7_witness :
    split_within [97, 32, 98, 98] 5
        = some ((packGroups [[97], [98, 98]] [] 5).map joinSp) ∧
      (packGroups [[97], [98, 98]] [] 5).flatten = [[97], [98, 98]] ∧
      (∀ x ∈ (((packGroups [[97], [98, 98]] [] 5).map joinSp).drop 1), x ≠ []) ∧
      ((((packGroups [[97], [98, 98]] [] 5).map joinSp).head? = some []) ↔
        ∃ w0 rest, [[97], [98, 98]] = w0 :: rest ∧ 5 < w0.length + 1) :=
  C7_split_within_greedy [97, 32, 98, 98] 5 [[97], [98, 98]] (by decide)

/-- C7 counterexample: a first word at least as long as the limit yields an
empty first output line: `split_within "aaa" 3 = ["", "aaa"]`, violating
"no output line is empty". -/
theorem C7_counterexample :
    split_within [97, 97, 97] 3 = some [[], [97, 97, 97]] ∧
      ¬ (∀ x ∈ (split_within [97, 97, 97] 3).getD [], x ≠ []) :=
  ⟨by decide, by decide⟩
